import Mathlib

set_option maxRecDepth 100000

/-!
# Verification of the `ProofPath` bit-path key type

Shallow embedding of `src/blockchain/ProofPath.js`: a fixed-capacity bit-path
key used as the addressing unit of a binary Merkle Patricia trie.

Modelling conventions:
* JS `Uint8Array` byte buffers are modelled as functions `Nat → Nat`.
  Reading an out-of-range index of a `Uint8Array` yields `undefined`, which
  every bitwise operation of the source coerces to `0`; writing to an
  out-of-range index is ignored.  Both behaviours are reflected below.
* Binary ('0'/'1') strings are modelled as `List Bool`, hexadecimal strings
  as `List Nat` of nibble values (one entry per hex digit).
* JS loops are modelled as structurally recursive functions with an explicit
  `fuel` argument that bounds the number of iterations; at every call site the
  fuel provably covers the iterations the JS loop performs, so the functions
  compute exactly what the loops compute.
* Operations that `throw` are modelled with `Option` (`none` = exception).
-/

/-- Source constant `BIT_LENGTH`: length of a path to a terminal node in bits. -/
def BIT_LENGTH : Nat := 256

/-- The `ProofPath` data model: a byte buffer `key` (32 significant bytes)
together with the logical number of significant bits. -/
structure ProofPath where
  key : Nat → Nat
  bitLength : Nat

/-- Source function `getBit(buffer, pos)`:
`(buffer[Math.floor(pos / 8)] & (1 << pos % 8)) >> pos % 8`. -/
def getBit (buffer : Nat → Nat) (pos : Nat) : Nat :=
  (buffer (pos / 8) &&& (1 <<< (pos % 8))) >>> (pos % 8)

/-- A single byte store `buffer[idx] = v` on a JS `Uint8Array` of length
`cap`: stores to indices `≥ cap` are silently dropped. -/
def writeByte (buffer : Nat → Nat) (idx v cap : Nat) : Nat → Nat :=
  fun j => if j = idx ∧ idx < cap then v else buffer j

/-- Source function `setBit(buffer, pos, bit)`, acting on the 32-byte
`Uint8Array` that `truncate` allocates.  When `bit === 0` the source clears
via `buffer[byte] &= 255 - (1 << bitPos)`, otherwise it sets via
`buffer[byte] |= 1 << bitPos`. -/
def setBit (buffer : Nat → Nat) (pos bit : Nat) : Nat → Nat :=
  if bit = 0 then
    writeByte buffer (pos / 8) (buffer (pos / 8) &&& (255 - (1 <<< (pos % 8)))) 32
  else
    writeByte buffer (pos / 8) (buffer (pos / 8) ||| (1 <<< (pos % 8))) 32

/-- Source method `bit(pos)`: `undefined` (here `none`) when `pos >= bitLength || pos < 0`,
otherwise `getBit(key, pos)`.  The position is a JS number, modelled as `Int`
so that negative positions are expressible. -/
def ProofPath.bit (p : ProofPath) (pos : Int) : Option Nat :=
  if (p.bitLength : Int) ≤ pos ∨ pos < 0 then none
  else some (getBit p.key pos.toNat)

/-- Phase 1 of `commonPrefixLength`: the byte-at-a-time loop
`for (pos = 0; pos < intersectingBits >> 3 && this.key[pos >> 3] === other.key[pos >> 3]; pos += 8)`.
`fuel` bounds the iterations; `bound` iterations always suffice because `pos`
starts at `0`, advances by `8` and the loop requires `pos < bound`. -/
def byteScan (k1 k2 : Nat → Nat) (bound : Nat) : Nat → Nat → Nat
  | 0, pos => pos
  | fuel + 1, pos =>
    if pos < bound ∧ k1 (pos / 8) = k2 (pos / 8) then byteScan k1 k2 bound fuel (pos + 8)
    else pos

/-- Phase 2 of `commonPrefixLength`: the bit-by-bit loop
`for (; pos < intersectingBits && this.bit(pos) === other.bit(pos); pos++)`.
`fuel` bounds the iterations; `intersectingBits` iterations always suffice
because the loop requires `pos < intersectingBits` and advances `pos` by 1. -/
def bitScan (a b : ProofPath) (intersectingBits : Nat) : Nat → Nat → Nat
  | 0, pos => pos
  | fuel + 1, pos =>
    if pos < intersectingBits ∧ a.bit pos = b.bit pos then
      bitScan a b intersectingBits fuel (pos + 1)
    else pos

/-- Source method `commonPrefixLength(other)`: the byte-wise phase starting
at `0` followed by the bit-wise phase starting where the first phase stopped,
both bounded by `intersectingBits = min(this.bitLength, other.bitLength)`
(`intersectingBits >> 3` for the byte phase). -/
def commonPrefixLength (a b : ProofPath) : Nat :=
  let intersectingBits := min a.bitLength b.bitLength
  bitScan a b intersectingBits intersectingBits
    (byteScan a.key b.key (intersectingBits / 8) (intersectingBits / 8) 0)

/-- Source method `compare(other)`.  In the second branch the source
computes `this.bit(pos) - other.bit(pos)`; there `pos < intersectingBits`
always holds (lemma `cpl_le` below), so both `bit` calls return a number and
the `getD 0` defaults are never taken. -/
def ProofPath.compare (a b : ProofPath) : Int :=
  if commonPrefixLength a b = min a.bitLength b.bitLength then
    Int.sign ((a.bitLength : Int) - (b.bitLength : Int))
  else
    ((a.bit (commonPrefixLength a b) |>.getD 0 : Nat) : Int)
      - ((b.bit (commonPrefixLength a b) |>.getD 0 : Nat) : Int)

/-- Source method `startsWith(other)`:
`this.commonPrefixLength(other) === other.bitLength`. -/
def ProofPath.startsWith (a other : ProofPath) : Bool :=
  commonPrefixLength a other == other.bitLength

/-- The numeric value of a list of bits, least-significant first: bit `i` of
the result is `l[i]`. -/
def byteOfBits (l : List Bool) : Nat :=
  l.foldr (fun b acc => (if b then 1 else 0) + 2 * acc) 0

/-- Modelled from the spec: the collaborator `binaryStringToUint8Array` from
`src/types/convert` (not under `src/`).  It converts a '0'/'1' string to a
byte buffer, one byte per 8 characters.  Character `i` becomes the bit at
byte `i / 8`, intra-byte offset `i % 8` with offset 0 the least significant
bit: this orientation is forced by §4.2 of the spec (`bit 0 = least
significant bit of the byte`) together with concrete scenarios 1 and 4 of §8
(path `"110"` has `bit(0) == 1`; `"1010101"` serializes its payload byte as
`0b01010101`). -/
def binaryStringToUint8Array (s : List Bool) : List Nat :=
  (List.range ((s.length + 7) / 8)).map (fun j => byteOfBits ((s.drop (8 * j)).take 8))

/-- Source function `padWithZeros(str, desiredLength)`: appends '0'
characters up to `desiredLength` (appends nothing when the string is already
at least that long, matching `ZEROS.substring(0, d - len)` for `len ≥ d`). -/
def padWithZeros (str : List Bool) (desiredLength : Nat) : List Bool :=
  str ++ List.replicate (desiredLength - str.length) false

/-- View a finite byte list as a JS `Uint8Array` buffer: reads past the end
yield `0` (the effect `undefined` has inside the source's bit arithmetic). -/
def listToBuf (l : List Nat) : Nat → Nat :=
  fun j => l.getD j 0

/-- The string branch of the `ProofPath` constructor:
`this.key = binaryStringToUint8Array(padWithZeros(bits, BIT_LENGTH)); bitLength = bits.length`. -/
def fromBitString (s : List Bool) : ProofPath :=
  { key := listToBuf (binaryStringToUint8Array (padWithZeros s BIT_LENGTH))
    bitLength := s.length }

/-- The possible runtime values of the constructor argument `bits`:
a string (of '0'/'1' characters), a `Uint8Array` of arbitrary length, or any
other JS value. -/
inductive BitsArg where
  | str (s : List Bool)
  | buf (b : List Nat)
  | other

/-- The `ProofPath` constructor.  `bitLength` is the second argument, which
defaults to `BIT_LENGTH` at JS call sites.  A string input overrides it with
the string's length; a buffer input is accepted exactly when its length is
`BIT_LENGTH / 8 = 32` (the buffer is copied, and the supplied `bitLength` is
stored without any validation); anything else throws (`none`). -/
def construct (bits : BitsArg) (bitLength : Nat) : Option ProofPath :=
  match bits with
  | .str s => some (fromBitString s)
  | .buf b =>
    if b.length = BIT_LENGTH / 8 then
      some { key := listToBuf b, bitLength := bitLength }
    else none
  | .other => none

/-- The first loop of `truncate`:
`for (let i = 0; i < bits >> 3; i++) bytes[i] = this.key[i]` — copy the fully
covered bytes.  `fuel` bounds the iterations (`n` suffices: the loop runs `i`
from `0` while `i < n`). -/
def copyScan (src : Nat → Nat) (n : Nat) : Nat → Nat → (Nat → Nat) → Nat → Nat
  | _, 0, dst => dst
  | i, fuel + 1, dst =>
    if i < n then copyScan src n (i + 1) fuel (writeByte dst i (src i) 32)
    else dst

/-- The second loop of `truncate`:
`for (let bit = 8 * (bits >> 3); bit < bits; bit++) setBit(bytes, bit, this.bit(bit))` —
set the bits of the trailing partial byte one by one.  In `setBit` the source
tests `bit === 0`, so any non-zero value — including the impossible
`undefined`, hence the `getD 1` default — takes the set branch; here
`bit < bits ≤ this.bitLength` always holds, so `this.bit(bit)` is a real bit.
`fuel` bounds the iterations (`bits - 8 * (bits >> 3)` is the exact count). -/
def setScan (p : ProofPath) (bits : Nat) : Nat → Nat → (Nat → Nat) → Nat → Nat
  | _, 0, dst => dst
  | pos, fuel + 1, dst =>
    if pos < bits then setScan p bits (pos + 1) fuel (setBit dst pos ((p.bit pos).getD 1))
    else dst

/-- Source method `truncate(bits)`: throws (`none`) when
`bits > this.bitLength`; otherwise allocates a zeroed 32-byte buffer, copies
the full bytes, sets the remaining bits individually and builds
`new ProofPath(bytes, bits)` through the buffer branch of the constructor. -/
def ProofPath.truncate (p : ProofPath) (bits : Nat) : Option ProofPath :=
  if bits > p.bitLength then none
  else
    construct
      (.buf ((List.range (BIT_LENGTH / 8)).map
        (setScan p bits (8 * (bits / 8)) (bits - 8 * (bits / 8))
          (copyScan p.key (bits / 8) 0 (bits / 8) (fun _ => 0)))))
      bits

/-- Source name `commonPrefix`: `this.truncate(this.commonPrefixLength(other))`. -/
def commonPrefixPath (a b : ProofPath) : Option ProofPath :=
  ProofPath.truncate a (commonPrefixLength a b)

/-- Source method `serialize(buffer)`: append the LEB128-style length
prefix (one byte when `bitLength < 128`, otherwise
`[128 + bitLength % 128, bitLength >> 7]`), then the payload loop
`for (pos = 0; pos < (bitLength + 7) >> 3; pos++) buffer.push(this.key[pos])`. -/
def ProofPath.serialize (p : ProofPath) (buffer : List Nat) : List Nat :=
  (if p.bitLength < 128 then buffer ++ [p.bitLength]
   else buffer ++ [128 + p.bitLength % 128, p.bitLength >>> 7])
    ++ (List.range ((p.bitLength + 7) / 8)).map p.key

/-- Modelled from the spec: the collaborator `uint8ArrayToHexadecimal` from
`src/types/convert` (not under `src/`).  Standard hexadecimal rendering of a
byte buffer: each byte contributes two hex digits (modelled as nibble
values), high nibble first. -/
def uint8ArrayToHexadecimal : List Nat → List Nat
  | [] => []
  | b :: rest => b / 16 :: b % 16 :: uint8ArrayToHexadecimal rest

/-- Modelled from the spec (§6): the collaborator `hexadecimalToBinaryString`
from `src/types/convert` (not under `src/`), with the contract the spec
states: "given a hex string of `2n` characters, return the `8n`-bit binary
string with each nibble expanded to 4 bits, most-significant-bit first". -/
def hexadecimalToBinaryString : List Nat → List Bool
  | [] => []
  | n :: rest =>
    n.testBit 3 :: n.testBit 2 :: n.testBit 1 :: n.testBit 0 ::
      hexadecimalToBinaryString rest

/-- Source function `trimZeros(str, desiredLength)`: throws (`none`) when the
string is shorter than `desiredLength`, otherwise keeps the first
`desiredLength` characters. -/
def trimZeros (str : List Bool) (desiredLength : Nat) : Option (List Bool) :=
  if str.length < desiredLength then none else some (str.take desiredLength)

/-- The `hexKey` field computed in the constructor:
`uint8ArrayToHexadecimal(this.key)` over the 32 bytes of `key`.  It is
derived data, always consistent with `key`, so it is modelled as a function
of the path instead of a stored field. -/
def hexKey (p : ProofPath) : List Nat :=
  uint8ArrayToHexadecimal ((List.range (BIT_LENGTH / 8)).map p.key)

/-- Source method `toJSON()`:
`trimZeros(hexadecimalToBinaryString(this.hexKey), this.bitLength)`. -/
def ProofPath.toJSON (p : ProofPath) : Option (List Bool) :=
  trimZeros (hexadecimalToBinaryString (hexKey p)) p.bitLength

/-- The 8 bits of one byte, least-significant first — the intra-byte bit
order used by `bit()`/`getBit`. -/
def byteToBits (b : Nat) : List Bool :=
  [b.testBit 0, b.testBit 1, b.testBit 2, b.testBit 3,
   b.testBit 4, b.testBit 5, b.testBit 6, b.testBit 7]

/-- The hex-to-binary conversion that makes the `toJSON` round-trip hold: it
expands each byte (= pair of hex digits) least-significant-bit first, i.e. in
the same bit order `bit()` uses — in contrast to the nibble-by-nibble
most-significant-bit-first contract the spec states for the collaborator. -/
def hexadecimalToBinaryStringLsb : List Nat → List Bool
  | n0 :: n1 :: rest => byteToBits (n0 * 16 + n1) ++ hexadecimalToBinaryStringLsb rest
  | _ => []

/-- Variant of `toJSON` with the least-significant-bit-first hex-to-binary collaborator
substituted for the spec's most-significant-bit-first one. -/
def ProofPath.toJSONLsb (p : ProofPath) : Option (List Bool) :=
  trimZeros (hexadecimalToBinaryStringLsb (hexKey p)) p.bitLength

/-- A byte list rendered as a bit string, each byte least-significant bit
first: position `i` holds bit `i % 8` of byte `i / 8`. -/
def bytesToBits : List Nat → List Bool
  | [] => []
  | b :: rest => byteToBits b ++ bytesToBits rest

/-- The pure bit-by-bit common-prefix scan, following the spec's words: "the
largest `k <= min(a.bitLength, b.bitLength)` such that `a.bit(i) == b.bit(i)`
for every `i < k`". -/
def bitByBitScan (a b : ProofPath) : Nat :=
  Nat.findGreatest (fun k => ∀ i, i < k → ProofPath.bit a i = ProofPath.bit b i)
    (min a.bitLength b.bitLength)

/-- The zero-padding invariant of the data model: every bit of `key` at
index `≥ bitLength` is zero. -/
def zeroPadded (p : ProofPath) : Prop :=
  ∀ i, p.bitLength ≤ i → getBit p.key i = 0

/-- The byte sequence §4.9 of the spec says `serialize` appends: the 1- or
2-byte length prefix followed by `ceil(bitLength / 8)` payload bytes taken
from the start of `key`. -/
def specSerialization (p : ProofPath) : List Nat :=
  (if p.bitLength < 128 then [p.bitLength]
   else [128 + p.bitLength % 128, p.bitLength >>> 7])
    ++ (List.range ((p.bitLength + 7) / 8)).map p.key

/-- The path built from the bit string `"110"`. -/
def path110 : ProofPath := fromBitString [true, true, false]

/-- The path built from the bit string `"1101"`. -/
def path1101 : ProofPath := fromBitString [true, true, false, true]

/-- The path built from the empty bit string. -/
def pathEmpty : ProofPath := fromBitString []

/-- The path built from the bit string `"0"`. -/
def path0 : ProofPath := fromBitString [false]

/-- The path built from the bit string `"1"`. -/
def path1 : ProofPath := fromBitString [true]

/-- The path the constructor builds from a 32-byte buffer of `7`-bytes with
the default length `BIT_LENGTH`. -/
def pathBuf7 : ProofPath :=
  { key := listToBuf (List.replicate 32 7), bitLength := BIT_LENGTH }

/-! ## Bridging lemmas: bit arithmetic -/

theorem getBit_eq_testBit (buffer : Nat → Nat) (pos : Nat) :
    getBit buffer pos = ((buffer (pos / 8)).testBit (pos % 8)).toNat := by
  unfold getBit
  rw [Nat.one_shiftLeft, Nat.and_two_pow, Nat.shiftRight_eq_div_pow,
    Nat.mul_div_cancel _ (Nat.pos_pow_of_pos _ (by norm_num))]

theorem getBit_eq_div (buffer : Nat → Nat) (pos : Nat) :
    getBit buffer pos = buffer (pos / 8) / 2 ^ (pos % 8) % 2 := by
  rw [getBit_eq_testBit, Nat.testBit_to_div_mod]
  rcases Nat.mod_two_eq_zero_or_one (buffer (pos / 8) / 2 ^ (pos % 8)) with h | h <;>
    simp [h]

theorem getBit_lt_two (buffer : Nat → Nat) (pos : Nat) : getBit buffer pos < 2 := by
  rw [getBit_eq_div]; exact Nat.mod_lt _ (by norm_num)

theorem getBit_zeroBuf (pos : Nat) : getBit (fun _ => 0) pos = 0 := by
  rw [getBit_eq_div]
  simp

theorem bit_eq_some (p : ProofPath) (n : Nat) (h : n < p.bitLength) :
    ProofPath.bit p n = some (getBit p.key n) := by
  unfold ProofPath.bit
  rw [if_neg (by push_cast; omega)]
  norm_num

theorem bit_eq_none (p : ProofPath) (n : Nat) (h : p.bitLength ≤ n) :
    ProofPath.bit p n = none := by
  unfold ProofPath.bit
  rw [if_pos (by push_cast; omega)]

theorem bit_eq_iff_getBit (a b : ProofPath) (n : Nat)
    (ha : n < a.bitLength) (hb : n < b.bitLength) :
    (ProofPath.bit a n = ProofPath.bit b n) ↔ getBit a.key n = getBit b.key n := by
  rw [bit_eq_some a n ha, bit_eq_some b n hb, Option.some_inj]

/-! ## Bridging lemmas: list access -/

theorem getD_map_range (f : Nat → Nat) (n j : Nat) :
    ((List.range n).map f).getD j 0 = if j < n then f j else 0 := by
  by_cases h : j < n
  · rw [if_pos h, List.getD_eq_getElem?_getD, List.getElem?_map, List.getElem?_range h]
    rfl
  · rw [if_neg h, List.getD_eq_default]
    simpa using by omega

theorem getBit_listToBuf_map_range (f : Nat → Nat) (i : Nat) :
    getBit (listToBuf ((List.range (BIT_LENGTH / 8)).map f)) i =
      if i < 256 then getBit f i else 0 := by
  have h32 : BIT_LENGTH / 8 = 32 := rfl
  rw [h32, getBit_eq_div, getBit_eq_div]
  show ((List.range 32).map f).getD (i / 8) 0 / 2 ^ (i % 8) % 2 = _
  rw [getD_map_range]
  by_cases h : i / 8 < 32
  · rw [if_pos h, if_pos (by omega)]
  · rw [if_neg h, if_neg (by omega)]
    simp

/-! ## The string constructor, bit by bit -/

theorem byteOfBits_cons (b : Bool) (l : List Bool) :
    byteOfBits (b :: l) = (if b then 1 else 0) + 2 * byteOfBits l := rfl

theorem byteOfBits_div_mod (l : List Bool) (k : Nat) :
    byteOfBits l / 2 ^ k % 2 = if l.getD k false then 1 else 0 := by
  induction l generalizing k with
  | nil => simp [byteOfBits]
  | cons b t ih =>
    cases k with
    | zero =>
      simp only [pow_zero, Nat.div_one, byteOfBits_cons, List.getD_cons_zero]
      cases b <;> simp <;> omega
    | succ k =>
      have h2 : byteOfBits (b :: t) / 2 ^ (k + 1) = byteOfBits t / 2 ^ k := by
        rw [byteOfBits_cons, pow_succ, mul_comm (2 ^ k) 2, ← Nat.div_div_eq_div_mul]
        congr 1
        cases b <;> simp <;> omega
      rw [h2, ih, List.getD_cons_succ]

theorem getBit_binaryString (s : List Bool) (i : Nat) :
    getBit (listToBuf (binaryStringToUint8Array s)) i =
      if s.getD i false then 1 else 0 := by
  rw [getBit_eq_div]
  show (binaryStringToUint8Array s).getD (i / 8) 0 / 2 ^ (i % 8) % 2 = _
  rw [binaryStringToUint8Array, getD_map_range]
  by_cases h : i / 8 < (s.length + 7) / 8
  · rw [if_pos h, byteOfBits_div_mod]
    congr 1
    have hidx : 8 * (i / 8) + i % 8 = i := by omega
    rw [List.getD_eq_getElem?_getD, List.getD_eq_getElem?_getD, List.getElem?_take,
      if_pos (show i % 8 < 8 by omega), List.getElem?_drop, hidx]
  · rw [if_neg h]
    rw [List.getD_eq_default _ _ (show s.length ≤ i by omega)]
    simp

theorem padWithZeros_getD (s : List Bool) (n i : Nat) :
    (padWithZeros s n).getD i false = s.getD i false := by
  unfold padWithZeros
  rw [List.getD_eq_getElem?_getD, List.getD_eq_getElem?_getD]
  by_cases h : i < s.length
  · rw [List.getElem?_append_left h]
  · rw [List.getElem?_append_right (by omega)]
    rw [List.getElem?_replicate]
    rw [List.getElem?_eq_none (by omega)]
    split <;> rfl

theorem fromBitString_getBit (s : List Bool) (i : Nat) :
    getBit (fromBitString s).key i = if s.getD i false then 1 else 0 := by
  show getBit (listToBuf (binaryStringToUint8Array (padWithZeros s BIT_LENGTH))) i = _
  rw [getBit_binaryString, padWithZeros_getD]

theorem fromBitString_bitLength (s : List Bool) :
    (fromBitString s).bitLength = s.length := rfl

/-! ## Characterization of the two scanning loops -/

theorem bitScan_ge (a b : ProofPath) (ib : Nat) :
    ∀ fuel pos, pos ≤ bitScan a b ib fuel pos := by
  intro fuel
  induction fuel with
  | zero => intro pos; simp [bitScan]
  | succ fuel ih =>
    intro pos
    simp only [bitScan]
    split
    · exact le_trans (by omega) (ih (pos + 1))
    · exact le_rfl

theorem bitScan_le (a b : ProofPath) (ib : Nat) :
    ∀ fuel pos, pos ≤ ib → bitScan a b ib fuel pos ≤ ib := by
  intro fuel
  induction fuel with
  | zero => intro pos h; simpa [bitScan] using h
  | succ fuel ih =>
    intro pos h
    simp only [bitScan]
    split
    · next hc => exact ih (pos + 1) (by omega)
    · exact h

theorem bitScan_agree (a b : ProofPath) (ib : Nat) :
    ∀ fuel pos i, pos ≤ i → i < bitScan a b ib fuel pos →
      i < ib ∧ ProofPath.bit a i = ProofPath.bit b i := by
  intro fuel
  induction fuel with
  | zero =>
    intro pos i h1 h2
    simp only [bitScan] at h2
    omega
  | succ fuel ih =>
    intro pos i h1 h2
    simp only [bitScan] at h2
    by_cases hc : pos < ib ∧ ProofPath.bit a pos = ProofPath.bit b pos
    · rw [if_pos hc] at h2
      rcases Nat.eq_or_lt_of_le h1 with rfl | hlt
      · exact hc
      · exact ih (pos + 1) i hlt h2
    · rw [if_neg hc] at h2
      omega

theorem bitScan_stop (a b : ProofPath) (ib : Nat) :
    ∀ fuel pos, ib ≤ pos + fuel → bitScan a b ib fuel pos < ib →
      ¬(ProofPath.bit a (bitScan a b ib fuel pos) =
        ProofPath.bit b (bitScan a b ib fuel pos)) := by
  intro fuel
  induction fuel with
  | zero =>
    intro pos hf hlt
    simp only [bitScan] at hlt
    exact absurd hlt (by omega)
  | succ fuel ih =>
    intro pos hf hlt
    simp only [bitScan] at hlt ⊢
    by_cases hc : pos < ib ∧ ProofPath.bit a pos = ProofPath.bit b pos
    · rw [if_pos hc] at hlt ⊢
      exact ih (pos + 1) (by omega) hlt
    · rw [if_neg hc] at hlt ⊢
      intro heq
      exact hc ⟨hlt, heq⟩

theorem byteScan_le (k1 k2 : Nat → Nat) (ib : Nat) :
    ∀ fuel pos, pos ≤ ib → byteScan k1 k2 (ib / 8) fuel pos ≤ ib := by
  intro fuel
  induction fuel with
  | zero => intro pos h; simpa [byteScan] using h
  | succ fuel ih =>
    intro pos h
    simp only [byteScan]
    split
    · next hc => exact ih (pos + 8) (by omega)
    · exact h

theorem byteScan_agree (k1 k2 : Nat → Nat) (bound : Nat) :
    ∀ fuel pos, pos % 8 = 0 → ∀ i, pos ≤ i → i < byteScan k1 k2 bound fuel pos →
      getBit k1 i = getBit k2 i := by
  intro fuel
  induction fuel with
  | zero =>
    intro pos _ i h1 h2
    simp only [byteScan] at h2
    exact absurd h2 (by omega)
  | succ fuel ih =>
    intro pos h8 i h1 h2
    simp only [byteScan] at h2
    by_cases hc : pos < bound ∧ k1 (pos / 8) = k2 (pos / 8)
    · rw [if_pos hc] at h2
      by_cases hi : pos + 8 ≤ i
      · exact ih (pos + 8) (by omega) i hi h2
      · rw [getBit_eq_div, getBit_eq_div]
        have hbyte : i / 8 = pos / 8 := by omega
        rw [hbyte, hc.2]
    · rw [if_neg hc] at h2
      exact absurd h2 (by omega)

/-! ## Characterization of `commonPrefixLength` -/

theorem cpl_le (a b : ProofPath) :
    commonPrefixLength a b ≤ min a.bitLength b.bitLength := by
  simp only [commonPrefixLength]
  exact bitScan_le a b _ _ _ (byteScan_le a.key b.key _ _ _ (Nat.zero_le _))

theorem cpl_agree (a b : ProofPath) :
    ∀ i, i < commonPrefixLength a b → ProofPath.bit a i = ProofPath.bit b i := by
  intro i hi
  simp only [commonPrefixLength] at hi
  set ib := min a.bitLength b.bitLength with hib
  set pos0 := byteScan a.key b.key (ib / 8) (ib / 8) 0 with hpos0
  by_cases h0 : i < pos0
  · have hgb := byteScan_agree a.key b.key (ib / 8) (ib / 8) 0 (by omega) i (by omega) h0
    have hpl : pos0 ≤ ib := byteScan_le a.key b.key ib (ib / 8) 0 (Nat.zero_le _)
    exact (bit_eq_iff_getBit a b i (by omega) (by omega)).2 hgb
  · exact (bitScan_agree a b ib ib pos0 i (by omega) hi).2

theorem cpl_mismatch (a b : ProofPath)
    (h : commonPrefixLength a b < min a.bitLength b.bitLength) :
    ¬(ProofPath.bit a (commonPrefixLength a b) =
      ProofPath.bit b (commonPrefixLength a b)) := by
  have h' := h
  simp only [commonPrefixLength] at h' ⊢
  exact bitScan_stop a b _ _ _ (by omega) h'

theorem cpl_eq_of (a b : ProofPath) (k : Nat)
    (hk : k ≤ min a.bitLength b.bitLength)
    (hagree : ∀ i, i < k → ProofPath.bit a i = ProofPath.bit b i)
    (hstop : k = min a.bitLength b.bitLength ∨
      ¬(ProofPath.bit a k = ProofPath.bit b k)) :
    commonPrefixLength a b = k := by
  rcases Nat.lt_trichotomy (commonPrefixLength a b) k with h | h | h
  · exact absurd (hagree _ h) (cpl_mismatch a b (by omega))
  · exact h
  · have hag := cpl_agree a b k h
    rcases hstop with heq | hne
    · have := cpl_le a b
      omega
    · exact absurd hag hne

theorem cpl_agree_getBit (a b : ProofPath) (i : Nat)
    (hi : i < commonPrefixLength a b) : getBit a.key i = getBit b.key i := by
  have hle := cpl_le a b
  exact (bit_eq_iff_getBit a b i (by omega) (by omega)).1 (cpl_agree a b i hi)

theorem cpl_mismatch_getBit (a b : ProofPath)
    (h : commonPrefixLength a b < min a.bitLength b.bitLength) :
    getBit a.key (commonPrefixLength a b) ≠ getBit b.key (commonPrefixLength a b) := by
  intro he
  exact cpl_mismatch a b h ((bit_eq_iff_getBit a b _ (by omega) (by omega)).2 he)

theorem cpl_eq_of_getBit (a b : ProofPath) (k : Nat)
    (hk : k ≤ min a.bitLength b.bitLength)
    (hagree : ∀ i, i < k → getBit a.key i = getBit b.key i)
    (hstop : k = min a.bitLength b.bitLength ∨ getBit a.key k ≠ getBit b.key k) :
    commonPrefixLength a b = k := by
  apply cpl_eq_of a b k hk
  · intro i hi
    exact (bit_eq_iff_getBit a b i (by omega) (by omega)).2 (hagree i hi)
  · rcases hstop with h | h
    · exact Or.inl h
    · by_cases hm : k = min a.bitLength b.bitLength
      · exact Or.inl hm
      · right
        intro he
        exact h ((bit_eq_iff_getBit a b k (by omega) (by omega)).1 he)

theorem cpl_comm (a b : ProofPath) :
    commonPrefixLength a b = commonPrefixLength b a := by
  apply cpl_eq_of a b (commonPrefixLength b a)
  · have := cpl_le b a
    omega
  · intro i hi
    exact (cpl_agree b a i hi).symm
  · by_cases hm : commonPrefixLength b a = min b.bitLength a.bitLength
    · left
      rw [hm, Nat.min_comm]
    · right
      have hlt : commonPrefixLength b a < min b.bitLength a.bitLength := by
        have := cpl_le b a
        omega
      intro he
      exact cpl_mismatch b a hlt he.symm

/-! ## Characterization of `compare` -/

theorem intSign_lt (x : Int) : Int.sign x < 0 ↔ x < 0 := by
  rcases Int.lt_trichotomy x 0 with h | h | h
  · rw [Int.sign_eq_neg_one_of_neg h]; omega
  · subst h; rw [Int.sign_zero]
  · rw [Int.sign_eq_one_of_pos h]; omega

theorem intSign_zero (x : Int) : Int.sign x = 0 ↔ x = 0 := by
  rcases Int.lt_trichotomy x 0 with h | h | h
  · rw [Int.sign_eq_neg_one_of_neg h]; omega
  · subst h; rw [Int.sign_zero]
  · rw [Int.sign_eq_one_of_pos h]; omega

theorem compare_eq_sign (a b : ProofPath)
    (h : commonPrefixLength a b = min a.bitLength b.bitLength) :
    ProofPath.compare a b = Int.sign ((a.bitLength : Int) - (b.bitLength : Int)) := by
  unfold ProofPath.compare
  rw [if_pos h]

theorem compare_eq_sub (a b : ProofPath)
    (h : commonPrefixLength a b ≠ min a.bitLength b.bitLength) :
    ProofPath.compare a b =
      (getBit a.key (commonPrefixLength a b) : Int) -
        (getBit b.key (commonPrefixLength a b) : Int) := by
  unfold ProofPath.compare
  rw [if_neg h]
  have hlt : commonPrefixLength a b < min a.bitLength b.bitLength := by
    have := cpl_le a b
    omega
  rw [bit_eq_some a _ (by omega), bit_eq_some b _ (by omega)]
  simp

theorem compare_lt_iff (a b : ProofPath) :
    ProofPath.compare a b < 0 ↔
      ((commonPrefixLength a b = min a.bitLength b.bitLength ∧
          a.bitLength < b.bitLength) ∨
       (commonPrefixLength a b < min a.bitLength b.bitLength ∧
          getBit a.key (commonPrefixLength a b) = 0 ∧
          getBit b.key (commonPrefixLength a b) = 1)) := by
  by_cases h : commonPrefixLength a b = min a.bitLength b.bitLength
  · rw [compare_eq_sign a b h, intSign_lt]
    constructor
    · intro hx
      exact Or.inl ⟨h, by omega⟩
    · rintro (⟨_, hlen⟩ | ⟨hlt, _⟩) <;> omega
  · have hlt : commonPrefixLength a b < min a.bitLength b.bitLength := by
      have := cpl_le a b
      omega
    rw [compare_eq_sub a b h]
    have hxy := cpl_mismatch_getBit a b hlt
    have hx2 := getBit_lt_two a.key (commonPrefixLength a b)
    have hy2 := getBit_lt_two b.key (commonPrefixLength a b)
    constructor
    · intro hs
      exact Or.inr ⟨hlt, by omega, by omega⟩
    · rintro (⟨heq, _⟩ | ⟨_, hx, hy⟩) <;> omega

theorem compare_eq_zero_iff (a b : ProofPath) :
    ProofPath.compare a b = 0 ↔
      (commonPrefixLength a b = min a.bitLength b.bitLength ∧
        a.bitLength = b.bitLength) := by
  by_cases h : commonPrefixLength a b = min a.bitLength b.bitLength
  · rw [compare_eq_sign a b h, intSign_zero]
    constructor
    · intro hx
      exact ⟨h, by omega⟩
    · rintro ⟨_, hlen⟩
      omega
  · have hlt : commonPrefixLength a b < min a.bitLength b.bitLength := by
      have := cpl_le a b
      omega
    rw [compare_eq_sub a b h]
    have hxy := cpl_mismatch_getBit a b hlt
    have hx2 := getBit_lt_two a.key (commonPrefixLength a b)
    have hy2 := getBit_lt_two b.key (commonPrefixLength a b)
    constructor
    · intro hs
      omega
    · rintro ⟨heq, _⟩
      omega

theorem compare_refl (a : ProofPath) : ProofPath.compare a a = 0 := by
  have hcpl : commonPrefixLength a a = min a.bitLength a.bitLength :=
    cpl_eq_of a a _ le_rfl (fun i _ => rfl) (Or.inl rfl)
  rw [compare_eq_sign a a hcpl]
  simp

theorem compare_antisym (a b : ProofPath) :
    ProofPath.compare a b = -ProofPath.compare b a := by
  by_cases h : commonPrefixLength a b = min a.bitLength b.bitLength
  · have h' : commonPrefixLength b a = min b.bitLength a.bitLength := by
      rw [← cpl_comm a b, h]
      exact Nat.min_comm _ _
    rw [compare_eq_sign a b h, compare_eq_sign b a h', ← Int.sign_neg, neg_sub]
  · have h' : commonPrefixLength b a ≠ min b.bitLength a.bitLength := by
      intro he
      apply h
      rw [cpl_comm a b, he]
      exact Nat.min_comm _ _
    rw [compare_eq_sub a b h, compare_eq_sub b a h', cpl_comm a b]
    omega

theorem compare_trans (a b c : ProofPath)
    (hab : ProofPath.compare a b < 0) (hbc : ProofPath.compare b c < 0) :
    ProofPath.compare a c < 0 := by
  rw [compare_lt_iff] at hab hbc ⊢
  rcases hab with ⟨h1, hlen1⟩ | ⟨h1, ha1, hb1⟩ <;>
    rcases hbc with ⟨h2, hlen2⟩ | ⟨h2, hb2, hc2⟩
  · -- a is a strict prefix of b, b is a strict prefix of c
    left
    constructor
    · apply cpl_eq_of_getBit a c _ le_rfl _ (Or.inl rfl)
      intro i hi
      exact (cpl_agree_getBit a b i (by omega)).trans (cpl_agree_getBit b c i (by omega))
    · omega
  · -- a is a strict prefix of b, b diverges from c at h2-position
    by_cases hp : commonPrefixLength b c < a.bitLength
    · right
      have hab2 : getBit a.key (commonPrefixLength b c) =
          getBit b.key (commonPrefixLength b c) :=
        cpl_agree_getBit a b _ (by omega)
      have hcplac : commonPrefixLength a c = commonPrefixLength b c := by
        apply cpl_eq_of_getBit a c _ (by omega)
        · intro i hi
          exact (cpl_agree_getBit a b i (by omega)).trans (cpl_agree_getBit b c i (by omega))
        · right
          omega
      rw [hcplac]
      exact ⟨by omega, by omega, by omega⟩
    · left
      constructor
      · apply cpl_eq_of_getBit a c _ le_rfl _ (Or.inl rfl)
        intro i hi
        exact (cpl_agree_getBit a b i (by omega)).trans (cpl_agree_getBit b c i (by omega))
      · omega
  · -- a diverges from b, b is a strict prefix of c
    right
    have hbc1 : getBit b.key (commonPrefixLength a b) =
        getBit c.key (commonPrefixLength a b) :=
      cpl_agree_getBit b c _ (by omega)
    have hcplac : commonPrefixLength a c = commonPrefixLength a b := by
      apply cpl_eq_of_getBit a c _ (by omega)
      · intro i hi
        exact (cpl_agree_getBit a b i (by omega)).trans (cpl_agree_getBit b c i (by omega))
      · right
        omega
    rw [hcplac]
    exact ⟨by omega, ha1, by omega⟩
  · -- both comparisons diverge on a bit
    have hne : commonPrefixLength a b ≠ commonPrefixLength b c := by
      intro he
      rw [he] at hb1
      omega
    by_cases hp : commonPrefixLength a b < commonPrefixLength b c
    · right
      have hbc1 : getBit b.key (commonPrefixLength a b) =
          getBit c.key (commonPrefixLength a b) :=
        cpl_agree_getBit b c _ (by omega)
      have hcplac : commonPrefixLength a c = commonPrefixLength a b := by
        apply cpl_eq_of_getBit a c _ (by omega)
        · intro i hi
          exact (cpl_agree_getBit a b i (by omega)).trans (cpl_agree_getBit b c i (by omega))
        · right
          omega
      rw [hcplac]
      exact ⟨by omega, ha1, by omega⟩
    · right
      have hab2 : getBit a.key (commonPrefixLength b c) =
          getBit b.key (commonPrefixLength b c) :=
        cpl_agree_getBit a b _ (by omega)
      have hcplac : commonPrefixLength a c = commonPrefixLength b c := by
        apply cpl_eq_of_getBit a c _ (by omega)
        · intro i hi
          exact (cpl_agree_getBit a b i (by omega)).trans (cpl_agree_getBit b c i (by omega))
        · right
          omega
      rw [hcplac]
      exact ⟨by omega, by omega, hc2⟩

/-! ## Characterization of the truncation loops -/

theorem writeByte_apply (buf : Nat → Nat) (idx v cap j : Nat) :
    writeByte buf idx v cap j = if j = idx ∧ idx < cap then v else buf j := rfl

theorem mask255_testBit (k m : Nat) (hk : k < 8) (hm : m < 8) :
    (255 - 2 ^ k).testBit m = decide (m ≠ k) := by
  interval_cases k <;> interval_cases m <;> decide

theorem setBit_apply (buf : Nat → Nat) (pos b j : Nat) :
    setBit buf pos b j =
      if j = pos / 8 ∧ pos / 8 < 32 then
        (if b = 0 then buf (pos / 8) &&& (255 - (1 <<< (pos % 8)))
         else buf (pos / 8) ||| (1 <<< (pos % 8)))
      else buf j := by
  unfold setBit
  by_cases hb : b = 0
  · rw [if_pos hb, writeByte_apply]
    by_cases hj : j = pos / 8 ∧ pos / 8 < 32
    · rw [if_pos hj, if_pos hj, if_pos hb]
    · rw [if_neg hj, if_neg hj]
  · rw [if_neg hb, writeByte_apply]
    by_cases hj : j = pos / 8 ∧ pos / 8 < 32
    · rw [if_pos hj, if_pos hj, if_neg hb]
    · rw [if_neg hj, if_neg hj]

theorem getBit_setBit (buf : Nat → Nat) (pos b i : Nat) :
    getBit (setBit buf pos b) i =
      if i = pos ∧ pos / 8 < 32 then (if b = 0 then 0 else 1) else getBit buf i := by
  rw [getBit_eq_testBit, getBit_eq_testBit, setBit_apply, Nat.one_shiftLeft]
  by_cases hj : i / 8 = pos / 8 ∧ pos / 8 < 32
  · rw [if_pos hj]
    by_cases hb : b = 0
    · rw [if_pos hb, Nat.testBit_land, mask255_testBit _ _ (by omega) (by omega)]
      by_cases hip : i = pos
      · subst hip
        simp [hj.2, hb]
      · have hm : i % 8 ≠ pos % 8 := by omega
        simp [hm, hip, hj.1]
    · rw [if_neg hb, Nat.testBit_lor, Nat.testBit_two_pow]
      by_cases hip : i = pos
      · subst hip
        simp [hj.2, hb]
      · have hm : i % 8 ≠ pos % 8 := by omega
        simp [Ne.symm hm, hip, hj.1]
  · rw [if_neg hj, if_neg (by omega)]

theorem copyScan_apply (src : Nat → Nat) (n : Nat) :
    ∀ fuel i dst j, copyScan src n i fuel dst j =
      if i ≤ j ∧ j < n ∧ j < i + fuel ∧ j < 32 then src j else dst j := by
  intro fuel
  induction fuel with
  | zero =>
    intro i dst j
    simp only [copyScan]
    rw [if_neg (by omega)]
  | succ fuel ih =>
    intro i dst j
    simp only [copyScan]
    by_cases hin : i < n
    · rw [if_pos hin, ih]
      by_cases hj : j = i
      · subst hj
        by_cases h32 : j < 32
        · rw [if_neg (by omega), if_pos ⟨le_rfl, hin, by omega, h32⟩]
          simp [writeByte, h32]
        · rw [if_neg (by omega), if_neg (by omega)]
          simp [writeByte, h32]
      · by_cases hc : i + 1 ≤ j ∧ j < n ∧ j < i + 1 + fuel ∧ j < 32
        · rw [if_pos hc, if_pos (by omega)]
        · rw [if_neg hc, if_neg (by omega)]
          simp [writeByte, hj]
    · rw [if_neg hin, if_neg (by omega)]

theorem setScan_getBit (p : ProofPath) (bits : Nat) (hbl : bits ≤ p.bitLength) :
    ∀ fuel pos dst i, getBit (setScan p bits pos fuel dst) i =
      if pos ≤ i ∧ i < bits ∧ i < pos + fuel ∧ i / 8 < 32 then getBit p.key i
      else getBit dst i := by
  intro fuel
  induction fuel with
  | zero =>
    intro pos dst i
    simp only [setScan]
    rw [if_neg (by omega)]
  | succ fuel ih =>
    intro pos dst i
    simp only [setScan]
    by_cases hin : pos < bits
    · rw [if_pos hin, ih]
      have hv : (ProofPath.bit p pos).getD 1 = getBit p.key pos := by
        rw [bit_eq_some p pos (by omega)]
        rfl
      by_cases hj : i = pos
      · subst hj
        by_cases h32 : i / 8 < 32
        · rw [if_neg (by omega), if_pos ⟨le_rfl, hin, by omega, h32⟩, getBit_setBit,
            if_pos ⟨rfl, h32⟩, hv]
          have := getBit_lt_two p.key i
          split <;> omega
        · rw [if_neg (by omega), if_neg (by omega), getBit_setBit,
            if_neg (fun h => h32 h.2)]
      · by_cases hc : pos + 1 ≤ i ∧ i < bits ∧ i < pos + 1 + fuel ∧ i / 8 < 32
        · rw [if_pos hc, if_pos (by omega)]
        · rw [if_neg hc, if_neg (by omega), getBit_setBit, if_neg (fun h => hj h.1)]
    · rw [if_neg hin, if_neg (by omega)]

/-! ## Characterization of `truncate` -/

theorem truncate_eq_some (p : ProofPath) (bits : Nat) (h : bits ≤ p.bitLength) :
    ProofPath.truncate p bits = some
      { key := listToBuf ((List.range (BIT_LENGTH / 8)).map
          (setScan p bits (8 * (bits / 8)) (bits - 8 * (bits / 8))
            (copyScan p.key (bits / 8) 0 (bits / 8) (fun _ => 0))))
        bitLength := bits } := by
  rw [ProofPath.truncate, if_neg (by omega)]
  simp only [construct]
  rw [if_pos (by simp [BIT_LENGTH])]

theorem truncate_eq_none (p : ProofPath) (bits : Nat) (h : p.bitLength < bits) :
    ProofPath.truncate p bits = none := by
  rw [ProofPath.truncate, if_pos (by omega)]

theorem truncBuffer_getBit (p : ProofPath) (bits : Nat) (hbl : bits ≤ p.bitLength)
    (i : Nat) :
    getBit (setScan p bits (8 * (bits / 8)) (bits - 8 * (bits / 8))
      (copyScan p.key (bits / 8) 0 (bits / 8) (fun _ => 0))) i =
      if i < bits ∧ i / 8 < 32 then getBit p.key i else 0 := by
  rw [setScan_getBit p bits hbl]
  by_cases hset : 8 * (bits / 8) ≤ i ∧ i < bits ∧
      i < 8 * (bits / 8) + (bits - 8 * (bits / 8)) ∧ i / 8 < 32
  · rw [if_pos hset, if_pos (by omega)]
  · rw [if_neg hset, getBit_eq_div, copyScan_apply]
    by_cases hcopy : 0 ≤ i / 8 ∧ i / 8 < bits / 8 ∧ i / 8 < 0 + bits / 8 ∧ i / 8 < 32
    · rw [if_pos hcopy, if_pos (by omega), ← getBit_eq_div]
    · rw [if_neg hcopy, if_neg (by omega)]
      simp

theorem truncate_key_getBit (p : ProofPath) (bits : Nat) (h : bits ≤ p.bitLength)
    (q : ProofPath) (hq : ProofPath.truncate p bits = some q) (i : Nat) :
    getBit q.key i = if i < bits ∧ i < 256 then getBit p.key i else 0 := by
  rw [truncate_eq_some p bits h, Option.some_inj] at hq
  subst hq
  show getBit (listToBuf ((List.range (BIT_LENGTH / 8)).map _)) i = _
  rw [getBit_listToBuf_map_range, truncBuffer_getBit p bits h i]
  split_ifs <;> first | rfl | omega

theorem truncate_bitLength (p : ProofPath) (bits : Nat) (h : bits ≤ p.bitLength)
    (q : ProofPath) (hq : ProofPath.truncate p bits = some q) :
    q.bitLength = bits := by
  rw [truncate_eq_some p bits h, Option.some_inj] at hq
  subst hq
  rfl

/-! ## The claims -/

/-- C4: the two-phase `commonPrefixLength` (byte-at-a-time advance followed
by bit-by-bit comparison) returns exactly the result of the pure bit-by-bit
scan: the largest `k ≤ min(a.bitLength, b.bitLength)` such that
`a.bit(i) == b.bit(i)` for every `i < k` — the position of the first
mismatching bit, or the intersection bound when there is no mismatch. -/
theorem C4_commonPrefixLength_eq_pure_scan (a b : ProofPath) :
    commonPrefixLength a b = bitByBitScan a b := by
  unfold bitByBitScan
  have hle := cpl_le a b
  have h1 : commonPrefixLength a b ≤
      Nat.findGreatest (fun k => ∀ i, i < k → ProofPath.bit a i = ProofPath.bit b i)
        (min a.bitLength b.bitLength) :=
    Nat.le_findGreatest hle (cpl_agree a b)
  have hgle : Nat.findGreatest
      (fun k => ∀ i, i < k → ProofPath.bit a i = ProofPath.bit b i)
      (min a.bitLength b.bitLength) ≤ min a.bitLength b.bitLength :=
    Nat.findGreatest_le _
  by_cases h2 : Nat.findGreatest
      (fun k => ∀ i, i < k → ProofPath.bit a i = ProofPath.bit b i)
      (min a.bitLength b.bitLength) ≤ commonPrefixLength a b
  · omega
  · push_neg at h2
    have hP := Nat.findGreatest_spec
      (P := fun k => ∀ i, i < k → ProofPath.bit a i = ProofPath.bit b i)
      (Nat.zero_le (min a.bitLength b.bitLength))
      (fun i hi => absurd hi (Nat.not_lt_zero i))
    exact absurd (hP _ h2) (cpl_mismatch a b (by omega))

/-- C2: `compare` is a strict total order on `ProofPath`s: exactly one of
`compare(a,b) < 0`, `== 0`, `> 0` holds; `compare(a,a) == 0`;
`compare(a,b) == -compare(b,a)`; and `compare` is transitive. -/
theorem C2_compare_strict_total_order (a b c : ProofPath) :
    ProofPath.compare a a = 0 ∧
    ProofPath.compare a b = -ProofPath.compare b a ∧
    ((ProofPath.compare a b < 0 ∧ ProofPath.compare b c < 0) →
      ProofPath.compare a c < 0) ∧
    (ProofPath.compare a b < 0 ∨ ProofPath.compare a b = 0 ∨
      0 < ProofPath.compare a b) ∧
    ¬(ProofPath.compare a b < 0 ∧ ProofPath.compare a b = 0) ∧
    ¬(ProofPath.compare a b < 0 ∧ 0 < ProofPath.compare a b) ∧
    ¬(ProofPath.compare a b = 0 ∧ 0 < ProofPath.compare a b) :=
  ⟨compare_refl a, compare_antisym a b, fun h => compare_trans a b c h.1 h.2,
    by omega, by omega, by omega, by omega⟩

/-- Witness for C2: transitivity applied at the concrete chain
`"" < "0" < "1"`. -/
theorem C2_compare_strict_total_order_witness :
    ProofPath.compare pathEmpty path1 < 0 :=
  (C2_compare_strict_total_order pathEmpty path0 path1).2.2.1 ⟨by decide, by decide⟩

/-- C3: with `pos = commonPrefixLength(a,b)` and
`intersecting = min(a.bitLength, b.bitLength)`: if `pos == intersecting`,
`compare(a,b)` is the sign of `a.bitLength - b.bitLength`; otherwise
`compare(a,b)` is negative exactly when `a`'s bit at `pos` is 0 and `b`'s
is 1, and positive in the opposite case. -/
theorem C3_compare_cases (a b : ProofPath) :
    (commonPrefixLength a b = min a.bitLength b.bitLength →
      ProofPath.compare a b = Int.sign ((a.bitLength : Int) - (b.bitLength : Int))) ∧
    (commonPrefixLength a b ≠ min a.bitLength b.bitLength →
      ((ProofPath.compare a b < 0 ↔
          ProofPath.bit a (commonPrefixLength a b) = some 0 ∧
          ProofPath.bit b (commonPrefixLength a b) = some 1) ∧
       (0 < ProofPath.compare a b ↔
          ProofPath.bit a (commonPrefixLength a b) = some 1 ∧
          ProofPath.bit b (commonPrefixLength a b) = some 0))) := by
  constructor
  · exact compare_eq_sign a b
  · intro h
    have hlt : commonPrefixLength a b < min a.bitLength b.bitLength := by
      have := cpl_le a b
      omega
    rw [bit_eq_some a (commonPrefixLength a b) (by omega),
      bit_eq_some b (commonPrefixLength a b) (by omega),
      compare_eq_sub a b h]
    have hxy := cpl_mismatch_getBit a b hlt
    have hx2 := getBit_lt_two a.key (commonPrefixLength a b)
    have hy2 := getBit_lt_two b.key (commonPrefixLength a b)
    simp only [Option.some_inj]
    omega

/-- Witness for C3: the length branch at `("", "0")` and the divergence
branch at `("0", "1")`. -/
theorem C3_compare_cases_witness :
    (ProofPath.compare pathEmpty path0 =
      Int.sign ((pathEmpty.bitLength : Int) - (path0.bitLength : Int))) ∧
    (ProofPath.compare path0 path1 < 0 ↔
      ProofPath.bit path0 (commonPrefixLength path0 path1) = some 0 ∧
      ProofPath.bit path1 (commonPrefixLength path0 path1) = some 1) :=
  ⟨(C3_compare_cases pathEmpty path0).1 (by decide),
   ((C3_compare_cases path0 path1).2 (by decide)).1⟩

/-- C5: for `newLength ≤ bitLength`, `truncate` returns a new path of length
`newLength` whose bits below `newLength` are the original bits and whose key
is zero from `newLength` on; for `newLength > bitLength` it throws. -/
theorem C5_truncate_correct (p : ProofPath) (newLength : Nat)
    (hwf : p.bitLength ≤ 256) :
    (newLength ≤ p.bitLength →
      (ProofPath.truncate p newLength).isSome = true ∧
      ∀ q, ProofPath.truncate p newLength = some q →
        q.bitLength = newLength ∧
        (∀ i, i < newLength → getBit q.key i = getBit p.key i) ∧
        (∀ i, newLength ≤ i → getBit q.key i = 0)) ∧
    (p.bitLength < newLength → ProofPath.truncate p newLength = none) := by
  constructor
  · intro hle
    constructor
    · rw [truncate_eq_some p newLength hle]
      rfl
    · intro q hq
      refine ⟨truncate_bitLength p newLength hle q hq, ?_, ?_⟩
      · intro i hi
        rw [truncate_key_getBit p newLength hle q hq i, if_pos (by omega)]
      · intro i hi
        rw [truncate_key_getBit p newLength hle q hq i, if_neg (by omega)]
  · exact truncate_eq_none p newLength

/-- Witness for C5: truncating `path110` to 2 bits succeeds, truncating it
to 4 bits throws. -/
theorem C5_truncate_correct_witness :
    (ProofPath.truncate path110 2).isSome = true ∧
    ProofPath.truncate path110 4 = none :=
  ⟨((C5_truncate_correct path110 2 (by decide)).1 (by decide)).1,
   (C5_truncate_correct path110 4 (by decide)).2 (by decide)⟩

/-- C10: every truncation of a path is a prefix of that path:
`p.startsWith(p.truncate(k))` holds whenever the truncation succeeds. -/
theorem C10_startsWith_truncate (p : ProofPath) (k : Nat) (q : ProofPath)
    (hwf : p.bitLength ≤ 256) (hq : ProofPath.truncate p k = some q) :
    ProofPath.startsWith p q = true := by
  have hk : k ≤ p.bitLength := by
    by_contra hcon
    rw [truncate_eq_none p k (by omega)] at hq
    exact Option.noConfusion hq
  have hbl : q.bitLength = k := truncate_bitLength p k hk q hq
  have hcpl : commonPrefixLength p q = k := by
    apply cpl_eq_of_getBit p q k (by omega)
    · intro i hi
      rw [truncate_key_getBit p k hk q hq i, if_pos (by omega)]
    · left
      omega
  unfold ProofPath.startsWith
  rw [hcpl, hbl]
  exact beq_self_eq_true k

/-- Witness for C10: `path110` starts with its own 2-bit truncation. -/
theorem C10_startsWith_truncate_witness :
    ProofPath.startsWith path110 ((ProofPath.truncate path110 2).getD path110) =
      true :=
  C10_startsWith_truncate path110 2 ((ProofPath.truncate path110 2).getD path110)
    (by decide) rfl

/-! ## Zero-padding helpers for C1 -/

theorem fromBitString_zeroPadded (s : List Bool) : zeroPadded (fromBitString s) := by
  intro i hi
  rw [fromBitString_getBit, List.getD_eq_default _ _ (by exact hi)]
  simp

theorem construct_buf_default_zeroPadded (b : List Nat) (p : ProofPath)
    (hp : construct (.buf b) BIT_LENGTH = some p) : zeroPadded p := by
  have h256 : BIT_LENGTH = 256 := rfl
  simp only [construct] at hp
  by_cases hlen : b.length = BIT_LENGTH / 8
  · rw [if_pos hlen, Option.some_inj] at hp
    subst hp
    intro i hi
    have hi' : 256 ≤ i := hi
    rw [getBit_eq_div]
    show b.getD (i / 8) 0 / 2 ^ (i % 8) % 2 = 0
    have h32 : b.length = 32 := hlen
    rw [List.getD_eq_default _ _ (by omega)]
    simp
  · rw [if_neg hlen] at hp
    exact Option.noConfusion hp

theorem truncate_zeroPadded (p : ProofPath) (k : Nat) (q : ProofPath)
    (hq : ProofPath.truncate p k = some q) : zeroPadded q := by
  have hk : k ≤ p.bitLength := by
    by_contra hcon
    rw [truncate_eq_none p k (by omega)] at hq
    exact Option.noConfusion hq
  have hbl : q.bitLength = k := truncate_bitLength p k hk q hq
  intro i hi
  rw [truncate_key_getBit p k hk q hq i, if_neg (by omega)]

/-- C1 fails as stated: the buffer constructor with an explicitly supplied
length stores the buffer verbatim and does not zero the bits past
`bitLength` — a path built from a 32-byte buffer of `0xFF` bytes with
explicit length 0 has `bit 17` of its key equal to 1, not 0. -/
theorem C1_zero_padding_cex :
    (construct (.buf (List.replicate 32 255)) 0).map
      (fun p => (p.bitLength, getBit p.key 17)) = some (0, 1) := by decide

/-- C1 amended: the zero-padding invariant (`every bit of key at index
≥ bitLength is zero`) holds for every path produced by construction from a
bit string, by construction from a 32-byte buffer with the *default* length
`BIT_LENGTH`, by `truncate`, and by `commonPrefix`.  It does not hold for
buffer construction with an explicitly supplied length, which copies the
buffer without zero-padding (see the counterexample). -/
theorem C1_zero_padding_amended :
    (∀ s : List Bool, zeroPadded (fromBitString s)) ∧
    (∀ b p, construct (.buf b) BIT_LENGTH = some p → zeroPadded p) ∧
    (∀ p k q, ProofPath.truncate p k = some q → zeroPadded q) ∧
    (∀ a b q, commonPrefixPath a b = some q → zeroPadded q) :=
  ⟨fromBitString_zeroPadded, construct_buf_default_zeroPadded,
   truncate_zeroPadded,
   fun a b q hq => truncate_zeroPadded a (commonPrefixLength a b) q hq⟩

/-- Witness for C1 (amended) at concrete paths: a default-length buffer
path, a truncation of `path110`, and a common prefix. -/
theorem C1_zero_padding_witness :
    getBit pathBuf7.key 300 = 0 ∧
    getBit ((ProofPath.truncate path110 2).getD path110).key 2 = 0 ∧
    getBit ((commonPrefixPath path110 path1101).getD path110).key 3 = 0 :=
  ⟨C1_zero_padding_amended.2.1 (List.replicate 32 7) pathBuf7 rfl 300 (by decide),
   C1_zero_padding_amended.2.2.1 path110 2
     ((ProofPath.truncate path110 2).getD path110) rfl 2 (by decide),
   C1_zero_padding_amended.2.2.2 path110 path1101
     ((commonPrefixPath path110 path1101).getD path110) rfl 3 (by decide)⟩

/-- C6: `serialize` appends to the buffer exactly the length prefix
(one byte `bitLength` when `bitLength < 128`, otherwise
`[128 + bitLength % 128, bitLength >> 7]`) followed by `ceil(bitLength / 8)`
payload bytes taken from the start of `key`; the bytes already in the buffer
are left unchanged. -/
theorem C6_serialize_format (p : ProofPath) (buffer : List Nat) :
    ProofPath.serialize p buffer = buffer ++ specSerialization p := by
  unfold ProofPath.serialize specSerialization
  by_cases h : p.bitLength < 128 <;> simp [h]

/-- C7 fails as stated: a requested explicit length greater than 256 is not
rejected — constructing from a valid 32-byte buffer with explicit length
1000 succeeds. -/
theorem C7_construct_cex :
    (construct (.buf (List.replicate 32 0)) 1000).isSome = true := by decide

/-- C7 amended: construction fails exactly when the input is neither a
string nor a 32-byte buffer.  The explicit length argument is not validated:
any length (including lengths above 256) is accepted together with a valid
buffer. -/
theorem C7_construct_errors (bits : BitsArg) (len : Nat) :
    construct bits len = none ↔
      (∀ s, bits ≠ BitsArg.str s) ∧
      (∀ b, bits = BitsArg.buf b → b.length ≠ 32) := by
  cases bits with
  | str s =>
    simp only [construct]
    constructor
    · intro h
      exact Option.noConfusion h
    · rintro ⟨h1, _⟩
      exact absurd rfl (h1 s)
  | buf b =>
    have h32 : BIT_LENGTH / 8 = 32 := rfl
    simp only [construct, h32]
    by_cases h : b.length = 32
    · rw [if_pos h]
      constructor
      · intro hc
        exact Option.noConfusion hc
      · rintro ⟨_, h2⟩
        exact absurd h (h2 b rfl)
    · rw [if_neg h]
      constructor
      · intro _
        refine ⟨fun s hs => BitsArg.noConfusion hs, fun b' hb' => ?_⟩
        injection hb' with he
        subst he
        exact h
      · intro _
        rfl
  | other =>
    simp only [construct]
    constructor
    · intro _
      exact ⟨fun s hs => BitsArg.noConfusion hs, fun b hb => BitsArg.noConfusion hb⟩
    · intro _
      trivial

/-- C8: `bit(pos)` returns the out-of-range sentinel exactly when `pos < 0`
or `pos ≥ bitLength`, and otherwise the bit at byte `floor(pos / 8)` of
`key`, intra-byte offset `pos % 8`, with offset 0 the least significant bit;
the path built from `"110"` has `bitLength` 3 with bits 1, 1, 0 and
`bit(3)` undefined. -/
theorem C8_bit_access (p : ProofPath) (pos : Int) :
    (ProofPath.bit p pos = none ↔ (pos < 0 ∨ (p.bitLength : Int) ≤ pos)) ∧
    (0 ≤ pos → pos < (p.bitLength : Int) →
      ProofPath.bit p pos =
        some (p.key (pos.toNat / 8) / 2 ^ (pos.toNat % 8) % 2)) ∧
    ((fromBitString [true, true, false]).bitLength = 3 ∧
      ProofPath.bit (fromBitString [true, true, false]) 0 = some 1 ∧
      ProofPath.bit (fromBitString [true, true, false]) 1 = some 1 ∧
      ProofPath.bit (fromBitString [true, true, false]) 2 = some 0 ∧
      ProofPath.bit (fromBitString [true, true, false]) 3 = none) := by
  refine ⟨?_, ?_, by decide⟩
  · constructor
    · intro h
      by_contra hcon
      push_neg at hcon
      rw [ProofPath.bit, if_neg (by omega)] at h
      exact Option.noConfusion h
    · intro h
      rw [ProofPath.bit, if_pos (by omega)]
  · intro h1 h2
    rw [ProofPath.bit, if_neg (by omega), getBit_eq_div]

/-- Witness for C8: the in-range branch evaluated at `path110`, position 1. -/
theorem C8_bit_access_witness :
    ProofPath.bit path110 1 = some (path110.key (1 / 8) / 2 ^ (1 % 8) % 2) :=
  (C8_bit_access path110 1).2.1 (by decide) (by decide)

/-! ## The textual views (C9) -/

theorem hexLsb_uint8Hex (l : List Nat) :
    hexadecimalToBinaryStringLsb (uint8ArrayToHexadecimal l) = bytesToBits l := by
  induction l with
  | nil => rfl
  | cons b rest ih =>
    show hexadecimalToBinaryStringLsb
      (b / 16 :: b % 16 :: uint8ArrayToHexadecimal rest) = _
    simp only [hexadecimalToBinaryStringLsb, bytesToBits]
    rw [ih]
    have hb : b / 16 * 16 + b % 16 = b := by omega
    rw [hb]

theorem bytesToBits_length (l : List Nat) :
    (bytesToBits l).length = 8 * l.length := by
  induction l with
  | nil => rfl
  | cons b rest ih =>
    simp only [bytesToBits, List.length_append, ih, List.length_cons]
    have hb : (byteToBits b).length = 8 := rfl
    rw [hb]
    ring

theorem byteToBits_getD (b i : Nat) (h : i < 8) :
    (byteToBits b).getD i false = b.testBit i := by
  interval_cases i <;> rfl

theorem bytesToBits_getD (l : List Nat) (i : Nat) :
    (bytesToBits l).getD i false = (l.getD (i / 8) 0).testBit (i % 8) := by
  induction l generalizing i with
  | nil =>
    show ([] : List Bool).getD i false = _
    simp [Nat.zero_testBit]
  | cons b rest ih =>
    simp only [bytesToBits]
    have hlen : (byteToBits b).length = 8 := rfl
    by_cases h : i < 8
    · have hlt : i < (byteToBits b).length := by rw [hlen]; omega
      rw [List.getD_eq_getElem?_getD, List.getElem?_append_left hlt,
        ← List.getD_eq_getElem?_getD, byteToBits_getD b i h]
      have h0 : i / 8 = 0 := by omega
      have hm : i % 8 = i := by omega
      rw [h0, hm, List.getD_cons_zero]
    · have hge : (byteToBits b).length ≤ i := by rw [hlen]; omega
      rw [List.getD_eq_getElem?_getD, List.getElem?_append_right hge, hlen,
        ← List.getD_eq_getElem?_getD, ih (i - 8)]
      have h1 : i / 8 = (i - 8) / 8 + 1 := by omega
      have h2 : (i - 8) % 8 = i % 8 := by omega
      rw [h1, List.getD_cons_succ, h2]

theorem fromBitString_testBit (s : List Bool) (i : Nat) :
    ((fromBitString s).key (i / 8)).testBit (i % 8) = s.getD i false := by
  have h := fromBitString_getBit s i
  rw [getBit_eq_testBit] at h
  cases htb : ((fromBitString s).key (i / 8)).testBit (i % 8) <;>
    cases hsd : s.getD i false <;> rw [htb, hsd] at h <;> simp at h <;> rfl

theorem list_ext_of_getD (l1 l2 : List Bool) (hlen : l1.length = l2.length)
    (h : ∀ i, i < l1.length → l1.getD i false = l2.getD i false) : l1 = l2 := by
  induction l1 generalizing l2 with
  | nil =>
    cases l2 with
    | nil => rfl
    | cons b t => simp at hlen
  | cons a t1 ih =>
    cases l2 with
    | nil => simp at hlen
    | cons b t2 =>
      have h0 := h 0 (by simp)
      simp only [List.getD_cons_zero] at h0
      subst h0
      have ht := ih t2 (by simpa using hlen) (fun i hi => by
        have hh := h (i + 1) (by simpa using hi)
        simpa using hh)
      rw [ht]

/-- C9 fails as stated: with the spec's collaborator contract (each nibble
expanded most-significant-bit first), rendering the path built from `"1"`
yields `"0"`, not `"1"` — the stated contract's bit order is the reverse of
the LSB-first order `bit()` and the constructor use, so the round-trip
breaks. -/
theorem C9_roundtrip_cex :
    ProofPath.toJSON (fromBitString [true]) = some [false] ∧
    some [false] ≠ some [true] := ⟨by decide, by decide⟩

/-- C9 amended: the round-trip holds when the hex-to-binary collaborator
expands each byte least-significant-bit first (the bit order `bit()` and
`binaryStringToUint8Array` use), rather than most-significant-bit first as
the spec's §6 contract states: for every bit string `s` with
`s.length ≤ 256`, constructing a path from `s` and rendering it yields `s`. -/
theorem C9_roundtrip_amended (s : List Bool) (h : s.length ≤ 256) :
    ProofPath.toJSONLsb (fromBitString s) = some s := by
  unfold ProofPath.toJSONLsb hexKey trimZeros
  rw [hexLsb_uint8Hex]
  have h32 : BIT_LENGTH / 8 = 32 := rfl
  rw [h32]
  have hlen : (bytesToBits ((List.range 32).map (fromBitString s).key)).length = 256 := by
    rw [bytesToBits_length]
    simp
  have hbl : (fromBitString s).bitLength = s.length := rfl
  rw [hbl, if_neg (by omega)]
  congr 1
  apply list_ext_of_getD
  · rw [List.length_take, hlen]
    omega
  · intro i hi
    rw [List.length_take, hlen] at hi
    have hgd : ((bytesToBits ((List.range 32).map (fromBitString s).key)).take
        s.length).getD i false =
        (bytesToBits ((List.range 32).map (fromBitString s).key)).getD i false := by
      rw [List.getD_eq_getElem?_getD, List.getD_eq_getElem?_getD,
        List.getElem?_take, if_pos (by omega)]
    rw [hgd, bytesToBits_getD, getD_map_range, if_pos (by omega),
      fromBitString_testBit]

/-- Witness for C9 (amended) at the bit string `"110"`. -/
theorem C9_roundtrip_amended_witness :
    ProofPath.toJSONLsb (fromBitString [true, true, false]) =
      some [true, true, false] :=
  C9_roundtrip_amended [true, true, false] (by decide)

example : (fromBitString [true, true, false]).bitLength = 3 := by decide
example : ProofPath.bit path110 0 = some 1 := by decide
example : ProofPath.bit path110 2 = some 0 := by decide
example : ProofPath.bit path110 3 = none := by decide
example : commonPrefixLength path110 path1101 = 3 := by decide
example : ProofPath.compare path0 path1 = -1 := by decide
example : ProofPath.startsWith path1101 path110 = true := by decide
